import Mathlib

/-!
# Verification of the PRU relational particle simulation core

Shallow embedding of the per-step phases of the PRU simulation scripts
(`pru_unified_sim.py`, `pru_evolution.py`, `pru_re_engineer_universe.py`)
over exact arithmetic: the scalar-field phases (heat diffusion, phase
classification, group synchronization) and the population-management pass
are embedded over `ℚ`, the geometric phases (force accumulation, the
integrator with its speed cap) over `ℝ` with `Real.sqrt` standing for
`np.sqrt` / `np.linalg.norm`.
-/

namespace UnifiedSimQ

/-- Time step `DELTA_T = 0.01` of `pru_unified_sim.py`. -/
def DELTA_T : ℚ := 1 / 100

/-- Heat transfer rate `HEAT_TRANSFER_COEFF = 0.01` of `pru_unified_sim.py`. -/
def HEAT_TRANSFER_COEFF : ℚ := 1 / 100

/-- The normalization constant `norm_factor = 1000.0` of `compute_heat_transfer`. -/
def norm_factor : ℚ := 1000

/-- The scalar-field portion of the `particle_dtype` record of
`pru_unified_sim.py`: `temperature`, `entropy`, `phase`, `quantum_state`,
`entanglement_id`.  `entanglement_id = some g` is a particle carrying the
int32 id `g` (in `pru_unified_sim.py` every particle carries one); `none`
is a particle with no synchronization group (`pru_emergent_sim.py`'s
`entangled_partner is None`, the spec's ungrouped default). -/
structure UParticleQ where
  temperature : ℚ
  entropy : ℚ
  phase : ℤ
  quantum_state : ℚ
  entanglement_id : Option ℤ
deriving DecidableEq

/-- One iteration of the inner `j` loop of `compute_heat_transfer`
(`pru_unified_sim.py` lines 113-118) for particle `i` of original
temperature `Ti`, acting on the running pair
`(new_temps[i], new_entropy[i])` with the neighbor's original temperature
`Tj`:
`Q_ij = HEAT_TRANSFER_COEFF * (T[j] - T[i])`;
`new_temps[i] += (Q_ij * DELTA_T) / norm_factor`;
`if new_temps[i] > 0: new_entropy[i] += ((Q_ij / new_temps[i]) * DELTA_T) / norm_factor`. -/
def heatStep (Ti : ℚ) (st : ℚ × ℚ) (Tj : ℚ) : ℚ × ℚ :=
  let Q := HEAT_TRANSFER_COEFF * (Tj - Ti)
  let t := st.1 + Q * DELTA_T / norm_factor
  (t, if 0 < t then st.2 + Q / t * DELTA_T / norm_factor else st.2)

/-- The full inner `j` loop of `compute_heat_transfer` for the particle `p`
at index `i`: `j` runs over all indices in order and the `i = j` case is
skipped, all neighbor temperatures being read from the original array. -/
def heatOne (ps : List UParticleQ) (i : ℕ) (p : UParticleQ) : ℚ × ℚ :=
  ps.enum.foldl
    (fun st jq => if jq.1 = i then st else heatStep p.temperature st jq.2.temperature)
    (p.temperature, p.entropy)

/-- Function `compute_heat_transfer` (`pru_unified_sim.py` lines 102-119): returns the
pair `(new_temps, new_entropy)`; the per-`i` bodies are independent and read
only the original array (the `prange` loop). -/
def compute_heat_transfer (ps : List UParticleQ) : List ℚ × List ℚ :=
  (ps.enum.map fun ip => (heatOne ps ip.1 ip.2).1,
   ps.enum.map fun ip => (heatOne ps ip.1 ip.2).2)

/-- The temperatures that the inner loop of `compute_heat_transfer` actually
visits for particle `i`: every index except `i`, in index order. -/
def othersTemps (ps : List UParticleQ) (i : ℕ) : List ℚ :=
  (ps.enum.filter fun q => ¬ q.1 = i).map fun q => q.2.temperature

/-- The temperature increment one neighbor of original temperature `x`
contributes to particle `i` of original temperature `Ti`:
`(Q_ij * DELTA_T) / norm_factor`. -/
def heatIncr (Ti x : ℚ) : ℚ :=
  HEAT_TRANSFER_COEFF * (x - Ti) * DELTA_T / norm_factor

/-- The running value of `new_temps[i]` just after the `(k+1)`-st visited
neighbor's contribution has been added, starting from `t`:
`t` plus the first `k+1` increments. -/
def runTemp (Ti t : ℚ) (L : List ℚ) (k : ℕ) : ℚ :=
  t + ((L.take (k + 1)).map (heatIncr Ti)).sum

/-- The entropy increment contributed by a neighbor of original temperature
`x`, divided by the temperature value `t2`:
`((Q_ij / t2) * DELTA_T) / norm_factor`. -/
def entIncr (Ti x t2 : ℚ) : ℚ :=
  HEAT_TRANSFER_COEFF * (x - Ti) / t2 * DELTA_T / norm_factor

/-- The `k`-th entropy contribution of the inner loop: the heat exchanged
with the `k`-th visited neighbor divided by the running temperature at that
moment — included only when that running temperature is positive. -/
def entropyTerm (Ti t : ℚ) (L : List ℚ) (k : ℕ) : ℚ :=
  if 0 < runTemp Ti t L k then entIncr Ti (L.getD k 0) (runTemp Ti t L k) else 0

/-- The entropy update the claim asserts, stated from the spec's words
(DiffusionModel contract): `new_entropy[i] = entropy[i] + Σ_j (Q_ij /
new_temperature[i]) * dt / norm_factor` with `new_temperature[i]` the final
post-update temperature of this step, the whole sum added only when that
final temperature is positive.  Written for comparison with
`compute_heat_transfer`; it is not the source's computation. -/
def entropySpecFinalTemp (ps : List UParticleQ) : List ℚ :=
  ps.enum.map fun ip =>
    let Ti := ip.2.temperature
    let L := othersTemps ps ip.1
    let tFinal := Ti + (L.map (heatIncr Ti)).sum
    if 0 < tFinal then ip.2.entropy + (L.map fun x => entIncr Ti x tFinal).sum
    else ip.2.entropy

/-- Phase indices of `update_phases` (`pru_unified_sim.py`): 0 = Solid. -/
def SOLID : ℤ := 0

/-- Phase index 1 = Liquid. -/
def LIQUID : ℤ := 1

/-- Phase index 2 = Gas. -/
def GAS : ℤ := 2

/-- The threshold table of `update_phases` (`pru_unified_sim.py` lines
146-153): `temp < 500 → 0`, `elif temp < 2500 → 1`, `else → 2`. -/
def phaseOf (t : ℚ) : ℤ :=
  if t < 500 then SOLID else if t < 2500 then LIQUID else GAS

/-- Function `update_phases` (`pru_unified_sim.py` lines 139-153): writes
`phaseOf temperature` into the `phase` field of every particle. -/
def update_phases (ps : List UParticleQ) : List UParticleQ :=
  ps.map fun p => { p with phase := phaseOf p.temperature }

/-- The members of synchronization group `g`: the particles whose
`entanglement_id` equals `g` (`np.where(particles['entanglement_id'] == eid)`). -/
def gMembers (ps : List UParticleQ) (g : ℤ) : List UParticleQ :=
  ps.filter fun p => p.entanglement_id = some g

/-- The arithmetic mean of `quantum_state` over group `g`
(`particles['quantum_state'][indices].mean()`). -/
def gMean (ps : List UParticleQ) (g : ℤ) : ℚ :=
  ((gMembers ps g).map (fun p => p.quantum_state)).sum / ((gMembers ps g).length : ℚ)

/-- One iteration of the `for eid in unique_ids` loop of
`update_quantum_states`: overwrite the `quantum_state` of every member of
group `g` with the group's current mean. -/
def syncGroup (g : ℤ) (ps : List UParticleQ) : List UParticleQ :=
  let avg := gMean ps g
  ps.map fun p =>
    if p.entanglement_id = some g then { p with quantum_state := avg } else p

/-- The ids of `np.unique(particles['entanglement_id'])`: the distinct ids present
(dedup; `np.unique` also sorts, which is immaterial since groups are
disjoint — the characterization theorem below holds for any duplicate-free
order). -/
def uniqueIds (ps : List UParticleQ) : List ℤ :=
  (ps.filterMap fun p => p.entanglement_id).dedup

/-- Function `update_quantum_states` (`pru_unified_sim.py` lines 155-164), the
GroupSynchronizer: for each id present, members update their
`quantum_state` to the group average. -/
def update_quantum_states (ps : List UParticleQ) : List UParticleQ :=
  (uniqueIds ps).foldl (fun acc g => syncGroup g acc) ps

/-- A concrete three-particle population, temperatures `0, 1, 1`, entropies
`0`: it separates the source's entropy rule (division by the running
temperature, giving `3/2` for particle 0) from the claimed rule (division
by the final temperature, giving `1`). -/
def heat3 : List UParticleQ :=
  [⟨0, 0, 0, 0, none⟩, ⟨1, 0, 0, 0, none⟩, ⟨1, 0, 0, 0, none⟩]

/-- What the GroupSynchronizer leaves in the designated scalar field of a
particle `p` of the population `ps`: ungrouped particles keep their value,
grouped ones get their group's mean over the original population. -/
def syncedParticle (ps : List UParticleQ) (p : UParticleQ) : UParticleQ :=
  match p.entanglement_id with
  | none => p
  | some g => { p with quantum_state := gMean ps g }

end UnifiedSimQ

namespace Evolution

/-- Constant `CREATION_THRESHOLD = 1.2` of `pru_evolution.py`. -/
def CREATION_THRESHOLD : ℚ := 6 / 5

/-- Constant `CONFLICT_THRESHOLD = 0.4` of `pru_evolution.py`. -/
def CONFLICT_THRESHOLD : ℚ := 2 / 5

/-- One node of `pru_evolution.py`'s parallel arrays: `positions` (3D),
`resonance`, `polarity`, `truth`, `alignment`. -/
structure Node where
  pos : ℚ × ℚ × ℚ
  resonance : ℚ
  polarity : ℚ
  truth : ℚ
  alignment : ℚ
deriving DecidableEq

/-- The derived scalar `harmony_index = resonance * truth` (`pru_evolution.py` line 69). -/
def harmony (n : Node) : ℚ := n.resonance * n.truth

/-- The offspring a creating node spawns (`pru_evolution.py` lines 76-80):
position perturbed by the sampled noise `z`, `resonance * 0.95`,
`polarity * -1`, `truth * 0.98`, `alignment` kept. -/
def offspringOf (n : Node) (z : ℚ × ℚ × ℚ) : Node :=
  { pos := n.pos + z
    resonance := n.resonance * (95 / 100)
    polarity := n.polarity * (-1)
    truth := n.truth * (98 / 100)
    alignment := n.alignment }

/-- The block of new nodes appended in one pass: one offspring per node
whose harmony exceeds the creation threshold, in store order, the `k`-th
one perturbed by the `k`-th sampled noise vector `noise k`. -/
def offspringList (noise : ℕ → ℚ × ℚ × ℚ) (s : List Node) : List Node :=
  ((s.filter fun n => CREATION_THRESHOLD < harmony n).enum).map
    fun kn => offspringOf kn.2 (noise kn.1)

/-- The creation/removal portion of `pru_evolution.py`'s main loop (lines
70-98): evaluate the creation mask on the post-influence field, append the
offspring when any (`np.vstack`/`np.hstack`), then recompute the conflict
mask over the extended arrays and compact them (`keep = ~conflict_mask`). -/
def popStep (noise : ℕ → ℚ × ℚ × ℚ) (s : List Node) : List Node :=
  let s1 := if s.any (fun n => CREATION_THRESHOLD < harmony n)
    then s ++ offspringList noise s else s
  if s1.any (fun n => harmony n < CONFLICT_THRESHOLD)
    then s1.filter (fun n => ¬ harmony n < CONFLICT_THRESHOLD) else s1

end Evolution

namespace UnifiedSimR

open scoped Classical

/-- Speed of light `C_LIGHT = 3e8` of `pru_unified_sim.py`. -/
noncomputable def C_LIGHT : ℝ := 3e8

/-- Gravitational constant `G` of `pru_unified_sim.py`. -/
noncomputable def G : ℝ := 6.67430e-11

/-- Coulomb constant `K_E` of `pru_unified_sim.py`. -/
noncomputable def K_E : ℝ := 8.9875517873681764e9

/-- Time step `DELTA_T = 0.01` of `pru_unified_sim.py`, over `ℝ`. -/
noncomputable def DELTA_T : ℝ := 0.01

/-- The cutoff radius `cutoff = 1e4` of `compute_forces_kdtree`. -/
noncomputable def cutoff : ℝ := 1e4

/-- The geometric portion of the `particle_dtype` record of
`pru_unified_sim.py`: `charge`, `mass`, 2D `position` and `velocity`. -/
structure RParticle where
  charge : ℝ
  mass : ℝ
  position : ℝ × ℝ
  velocity : ℝ × ℝ

/-- A default particle for out-of-range indexing (never reached: the source
indexes only with valid indices). -/
noncomputable instance : Inhabited RParticle := ⟨⟨0, 0, (0, 0), (0, 0)⟩⟩

/-- The value `np.sqrt(v[0]**2 + v[1]**2)`: the Euclidean norm as the source computes
it. -/
noncomputable def normV (v : ℝ × ℝ) : ℝ := Real.sqrt (v.1 ^ 2 + v.2 ^ 2)

/-- The softened distance of `compute_forces_kdtree` (`pru_unified_sim.py`
line 90): `np.sqrt(r_vec[0]**2 + r_vec[1]**2 + 1e3**2)`. -/
noncomputable def softDistance (r : ℝ × ℝ) : ℝ :=
  Real.sqrt (r.1 ^ 2 + r.2 ^ 2 + 1000 ^ 2)

/-- The relativistic factor of `compute_forces_kdtree` (`pru_unified_sim.py`
lines 93-95): `v_rel = ‖velocity‖ / C_LIGHT`;
`gamma = 1/sqrt(1 - 0.999**2) if v_rel >= 0.999 else 1/sqrt(1 - v_rel**2)`. -/
noncomputable def gammaOf (v : ℝ × ℝ) : ℝ :=
  let v_rel := normV v / C_LIGHT
  if 0.999 ≤ v_rel then 1 / Real.sqrt (1 - 0.999 ^ 2)
  else 1 / Real.sqrt (1 - v_rel ^ 2)

/-- Query `tree.query_ball_point(pos_i, cutoff)`: the indices of the positions
within (Euclidean) distance `cutoff` of the query point — the semantics of
the cKDTree radius query. -/
noncomputable def queryBall (positions : List (ℝ × ℝ)) (c : ℝ × ℝ) (r : ℝ) : List ℕ :=
  (List.range positions.length).filter fun j =>
    let p := positions.getD j (0, 0)
    Real.sqrt ((p.1 - c.1) ^ 2 + (p.2 - c.2) ^ 2) ≤ r

/-- The force accumulated on particle `i` by the inner loop of
`compute_forces_kdtree` (`pru_unified_sim.py` lines 83-98): the query point
itself is removed from its neighbor list, and each neighbor `j`
contributes `(F_g + F_e) * gamma * (r_vec / distance)`. -/
noncomputable def forceOn (ps : List RParticle) (i : ℕ) : ℝ × ℝ :=
  let positions := ps.map fun p => p.position
  let pos_i := positions.getD i (0, 0)
  let pi_ := ps.getD i default
  let neighbors := (queryBall positions pos_i cutoff).filter fun j => ¬ j = i
  neighbors.foldl
    (fun acc j =>
      let pj := ps.getD j default
      let r_vec := (pj.position.1 - pos_i.1, pj.position.2 - pos_i.2)
      let distance := softDistance r_vec
      let F_g := G * pi_.mass * pj.mass / distance ^ 2
      let F_e := K_E * pi_.charge * pj.charge / distance ^ 2
      let force_magnitude := (F_g + F_e) * gammaOf pi_.velocity
      (acc.1 + force_magnitude * (r_vec.1 / distance),
       acc.2 + force_magnitude * (r_vec.2 / distance)))
    (0, 0)

/-- Function `compute_forces_kdtree` (`pru_unified_sim.py` lines 71-99): one
accumulated force vector per particle. -/
noncomputable def compute_forces_kdtree (ps : List RParticle) : List (ℝ × ℝ) :=
  (List.range ps.length).map (forceOn ps)

/-- The velocity after the force update of `update_positions`
(`pru_unified_sim.py` lines 128-129): `velocity += force * DELTA_T / mass`. -/
noncomputable def velAfterForce (p : RParticle) (f : ℝ × ℝ) : ℝ × ℝ :=
  (p.velocity.1 + f.1 * DELTA_T / p.mass, p.velocity.2 + f.2 * DELTA_T / p.mass)

/-- The body of `update_positions` (`pru_unified_sim.py` lines 127-136) for
one particle: force update, speed cap at `0.99 * C_LIGHT` (rescale to the
cap when the norm exceeds it), then position update from the capped
velocity. -/
noncomputable def integrateOne (p : RParticle) (f : ℝ × ℝ) : RParticle :=
  let v1 := velAfterForce p f
  let v_norm := normV v1
  let v2 := if 0.99 * C_LIGHT < v_norm then
      (0.99 * C_LIGHT / v_norm * v1.1, 0.99 * C_LIGHT / v_norm * v1.2)
    else v1
  { p with
    velocity := v2
    position := (p.position.1 + v2.1 * DELTA_T, p.position.2 + v2.2 * DELTA_T) }

/-- Function `update_positions` (`pru_unified_sim.py` lines 121-136), the
Integrator: every particle is advanced with its accumulated force. -/
noncomputable def update_positions (ps : List RParticle) (fs : List (ℝ × ℝ)) :
    List RParticle :=
  List.zipWith integrateOne ps fs

end UnifiedSimR

namespace ReEngineer

/-- The softened distance of `update_positions` in
`pru_re_engineer_universe.py` (lines 66-67):
`np.linalg.norm(r_vec) + 1e-6` over 3D position differences — here the
softening really is an additive constant on the Euclidean norm. -/
noncomputable def distance (r : ℝ × ℝ × ℝ) : ℝ :=
  Real.sqrt (r.1 ^ 2 + r.2.1 ^ 2 + r.2.2 ^ 2) + 1e-6

end ReEngineer

namespace UnifiedSimR

/-- Helper: the norm of a rescaled vector is the scale times the norm, for a
nonnegative scale. -/
theorem normV_scale (s : ℝ) (hs : 0 ≤ s) (v : ℝ × ℝ) :
    normV (s * v.1, s * v.2) = s * normV v := by
  simp only [normV]
  rw [show (s * v.1) ^ 2 + (s * v.2) ^ 2 = s ^ 2 * (v.1 ^ 2 + v.2 ^ 2) by ring,
    Real.sqrt_mul (sq_nonneg s), Real.sqrt_sq hs]

/-- Helper: the speed cap is a positive bound. -/
theorem cap_pos : (0 : ℝ) < 0.99 * C_LIGHT := by norm_num [C_LIGHT]

/-- Helper: after `integrateOne`, the velocity norm is at most the cap. -/
theorem integrateOne_cap_le (p : RParticle) (f : ℝ × ℝ) :
    normV (integrateOne p f).velocity ≤ 0.99 * C_LIGHT := by
  simp only [integrateOne]
  by_cases h : 0.99 * C_LIGHT < normV (velAfterForce p f)
  · rw [if_pos h, normV_scale _ (div_nonneg cap_pos.le (le_trans cap_pos.le h.le))]
    rw [div_mul_cancel₀ _ (ne_of_gt (lt_trans cap_pos h))]
  · rw [if_neg h]
    exact le_of_not_lt h

/-- Claim C4: in the ForceModel the relativistic factor is
`1/√(1 - v_rel²)` with `v_rel = ‖velocity‖ / C_LIGHT` clamped to `0.999`
whenever it reaches `0.999`; the radicand is always strictly positive (so
the square root of a non-positive number / division by zero is
unreachable) and `gamma` is strictly positive, for every velocity,
including speeds at or beyond the speed limit. -/
theorem gamma_clamped_welldefined : ∀ v : ℝ × ℝ,
    gammaOf v = 1 / Real.sqrt (1 - min (normV v / C_LIGHT) 0.999 ^ 2) ∧
    0 < 1 - min (normV v / C_LIGHT) 0.999 ^ 2 ∧
    0 < gammaOf v := by
  intro v
  have h0 : 0 ≤ normV v / C_LIGHT :=
    div_nonneg (Real.sqrt_nonneg _) (by norm_num [C_LIGHT])
  by_cases h : (0.999 : ℝ) ≤ normV v / C_LIGHT
  · have hmin : min (normV v / C_LIGHT) 0.999 = 0.999 := min_eq_right h
    have hrad : (0 : ℝ) < 1 - (0.999 : ℝ) ^ 2 := by norm_num
    refine ⟨?_, ?_, ?_⟩
    · simp only [gammaOf, if_pos h, hmin]
    · rw [hmin]; exact hrad
    · simp only [gammaOf, if_pos h]
      exact div_pos one_pos (Real.sqrt_pos.mpr hrad)
  · have hlt : normV v / C_LIGHT < 0.999 := lt_of_not_le h
    have hmin : min (normV v / C_LIGHT) 0.999 = normV v / C_LIGHT :=
      min_eq_left hlt.le
    have hrad : (0 : ℝ) < 1 - (normV v / C_LIGHT) ^ 2 := by nlinarith
    refine ⟨?_, ?_, ?_⟩
    · simp only [gammaOf, if_neg h, hmin]
    · rw [hmin]; exact hrad
    · simp only [gammaOf, if_neg h]
      exact div_pos one_pos (Real.sqrt_pos.mpr hrad)

/-- Counterexample to claim C3: no single positive additive softening
constant describes the ForceModel's distance in `pru_unified_sim.py` — the
source computes `√(‖r‖² + 1000²)`, which is not `‖r‖ + s` for any fixed
`s > 0` (evaluate at `r = (0,0)` forcing `s = 1000`, then at `r = (3,4)`:
`√1000025 ≠ 1005`). -/
theorem softDistance_not_norm_plus_const :
    ¬ ∃ s : ℝ, 0 < s ∧
      ∀ r : ℝ × ℝ, softDistance r = Real.sqrt (r.1 ^ 2 + r.2 ^ 2) + s := by
  rintro ⟨s, _, h⟩
  have h0 := h (0, 0)
  have h1 := h (3, 4)
  simp only [softDistance] at h0 h1
  rw [show ((0:ℝ) ^ 2 + 0 ^ 2 + 1000 ^ 2) = 1000 ^ 2 by norm_num,
    Real.sqrt_sq (by norm_num : (0:ℝ) ≤ 1000),
    show ((0:ℝ) ^ 2 + 0 ^ 2) = 0 by norm_num, Real.sqrt_zero] at h0
  rw [show ((3:ℝ) ^ 2 + 4 ^ 2) = 5 ^ 2 by norm_num,
    Real.sqrt_sq (by norm_num : (0:ℝ) ≤ 5)] at h1
  have hs : s = 1000 := by linarith
  subst hs
  have hsq := Real.sq_sqrt (by norm_num : (0:ℝ) ≤ 3 ^ 2 + 4 ^ 2 + 1000 ^ 2)
  rw [show ((3:ℝ) ^ 2 + 4 ^ 2 + 1000 ^ 2) = 5 ^ 2 + 1000 ^ 2 by norm_num, h1] at hsq
  norm_num at hsq

/-- Claim C3 (amended): in `pru_unified_sim.py` the ForceModel's distance is
`√(‖r‖² + 1000²)` — softening added under the square root, not to the
norm — while `pru_re_engineer_universe.py` does use the additive form
`‖r‖ + 1e-6`; in both force models the distance is bounded below by a
positive constant (1000 resp. `1e-6`), hence strictly positive even for
coincident positions. -/
theorem softening_distance_positive : ∀ (r : ℝ × ℝ) (u : ℝ × ℝ × ℝ),
    softDistance r = Real.sqrt (r.1 ^ 2 + r.2 ^ 2 + 1000 ^ 2) ∧
    1000 ≤ softDistance r ∧ 0 < softDistance r ∧
    ReEngineer.distance u = Real.sqrt (u.1 ^ 2 + u.2.1 ^ 2 + u.2.2 ^ 2) + 1e-6 ∧
    1e-6 ≤ ReEngineer.distance u ∧ 0 < ReEngineer.distance u := by
  intro r u
  have hr : (1000 : ℝ) ≤ softDistance r := by
    have : Real.sqrt (1000 ^ 2) ≤ Real.sqrt (r.1 ^ 2 + r.2 ^ 2 + 1000 ^ 2) :=
      Real.sqrt_le_sqrt (by nlinarith [sq_nonneg r.1, sq_nonneg r.2])
    rwa [Real.sqrt_sq (by norm_num : (0:ℝ) ≤ 1000)] at this
  have hu : (1e-6 : ℝ) ≤ ReEngineer.distance u := by
    have := Real.sqrt_nonneg (u.1 ^ 2 + u.2.1 ^ 2 + u.2.2 ^ 2)
    simp only [ReEngineer.distance]
    linarith
  exact ⟨rfl, hr, lt_of_lt_of_le (by norm_num) hr, rfl,
    hu, lt_of_lt_of_le (by norm_num) hu⟩

/-- Claim C1: the Integrator's hard post-condition. After `update_positions`
every particle's velocity norm is at most `0.99 * C_LIGHT`; whenever the
post-force-update velocity norm exceeds that cap, the velocity is rescaled
to exactly the cap in the same direction, unconditionally. -/
theorem update_positions_speed_cap : ∀ (p : RParticle) (f : ℝ × ℝ),
    normV (integrateOne p f).velocity ≤ 0.99 * C_LIGHT ∧
    (0.99 * C_LIGHT < normV (velAfterForce p f) →
      (integrateOne p f).velocity =
        (0.99 * C_LIGHT / normV (velAfterForce p f) * (velAfterForce p f).1,
         0.99 * C_LIGHT / normV (velAfterForce p f) * (velAfterForce p f).2) ∧
      normV (integrateOne p f).velocity = 0.99 * C_LIGHT) ∧
    ∀ (ps : List RParticle) (fs : List (ℝ × ℝ)),
      (update_positions ps fs).Forall fun q => normV q.velocity ≤ 0.99 * C_LIGHT := by
  intro p f
  refine ⟨integrateOne_cap_le p f, fun h => ⟨?_, ?_⟩, ?_⟩
  · simp only [integrateOne, if_pos h]
  · simp only [integrateOne, if_pos h]
    rw [normV_scale _ (div_nonneg cap_pos.le (le_trans cap_pos.le h.le))]
    exact div_mul_cancel₀ _ (ne_of_gt (lt_trans cap_pos h))
  · intro ps
    induction ps with
    | nil => intro fs; simp [update_positions]
    | cons q ps ih =>
      intro fs
      cases fs with
      | nil => simp [update_positions]
      | cons g fs =>
        simp only [update_positions, List.zipWith_cons_cons, List.forall_cons]
        exact ⟨integrateOne_cap_le q g, ih fs⟩

end UnifiedSimR

/-- Claim C9: with an empty population, the spatial-index query returns an
empty list and every per-step phase (force accumulation, heat diffusion,
integration, phase classification, group synchronization) returns or
leaves empty state; nothing fails. -/
theorem empty_population_no_ops : ∀ (c : ℝ × ℝ) (r : ℝ) (fs : List (ℝ × ℝ)),
    UnifiedSimR.queryBall [] c r = [] ∧
    UnifiedSimR.compute_forces_kdtree [] = [] ∧
    UnifiedSimQ.compute_heat_transfer [] = ([], []) ∧
    UnifiedSimR.update_positions [] fs = [] ∧
    UnifiedSimQ.update_phases [] = [] ∧
    UnifiedSimQ.update_quantum_states [] = [] :=
  fun _ _ _ => ⟨rfl, rfl, rfl, rfl, rfl, rfl⟩

namespace UnifiedSimQ

/-- Claim C5: the PhaseClassifier is a pure threshold function of
temperature: below 500 SOLID, in `[500, 2500)` LIQUID, at or above 2500
GAS; at the boundaries `500 ↦ LIQUID`, `2500 ↦ GAS`, `499.999 ↦ SOLID`;
and `update_phases` writes only the `phase` field. -/
theorem update_phases_thresholds : ∀ t : ℚ,
    (phaseOf t = SOLID ↔ t < 500) ∧
    (phaseOf t = LIQUID ↔ 500 ≤ t ∧ t < 2500) ∧
    (phaseOf t = GAS ↔ 2500 ≤ t) ∧
    phaseOf 500 = LIQUID ∧ phaseOf 2500 = GAS ∧
    phaseOf (499999 / 1000) = SOLID ∧
    ∀ ps : List UParticleQ, update_phases ps =
      ps.map fun p => { p with phase := phaseOf p.temperature } := by
  intro t
  refine ⟨?_, ?_, ?_, ?_, ?_, ?_, fun ps => rfl⟩
  · unfold phaseOf SOLID LIQUID GAS
    split_ifs with h1 h2 <;> simp_all
  · unfold phaseOf SOLID LIQUID GAS
    split_ifs with h1 h2 <;> simp_all
  · unfold phaseOf SOLID LIQUID GAS
    split_ifs with h1 h2 <;> simp_all
    linarith
  · norm_num [phaseOf, LIQUID]
  · norm_num [phaseOf, GAS]
  · norm_num [phaseOf, SOLID]

end UnifiedSimQ

namespace UnifiedSimQ

/-- Helper: the guarded fold of the inner `j` loop (skip when `j = i`) is
the fold of `heatStep` over the filtered temperature list. -/
theorem foldl_heat_guard (Ti : ℚ) (i : ℕ) :
    ∀ (l : List (ℕ × UParticleQ)) (b : ℚ × ℚ),
      l.foldl (fun st jq => if jq.1 = i then st else heatStep Ti st jq.2.temperature) b =
      ((l.filter fun jq => ¬ jq.1 = i).map fun jq => jq.2.temperature).foldl
        (heatStep Ti) b := by
  intro l
  induction l with
  | nil => intro b; rfl
  | cons x l ih =>
    intro b
    by_cases h : x.1 = i <;> simp [List.filter_cons, h, ih]

/-- Helper: `heatStep` written with the named increments. -/
theorem heatStep_eq (Ti t e x : ℚ) :
    heatStep Ti (t, e) x =
      (t + heatIncr Ti x,
       if 0 < t + heatIncr Ti x then e + entIncr Ti x (t + heatIncr Ti x) else e) := rfl

/-- Helper: the inner loop of `compute_heat_transfer` is the plain fold of
`heatStep` over the non-`i` temperatures. -/
theorem heatOne_eq (ps : List UParticleQ) (i : ℕ) (p : UParticleQ) :
    heatOne ps i p =
      (othersTemps ps i).foldl (heatStep p.temperature) (p.temperature, p.entropy) := by
  unfold heatOne othersTemps
  rw [foldl_heat_guard]

/-- Helper: the temperature component of the fold is the start value plus
the sum of all the increments. -/
theorem foldl_heatStep_fst (Ti : ℚ) :
    ∀ (L : List ℚ) (t e : ℚ),
      (L.foldl (heatStep Ti) (t, e)).1 = t + (L.map (heatIncr Ti)).sum := by
  intro L
  induction L with
  | nil => intro t e; simp
  | cons x L ih =>
    intro t e
    rw [List.foldl_cons, heatStep_eq, ih, List.map_cons, List.sum_cons]
    ring

/-- Helper: the entropy component of the fold is the start value plus the
sum of the running-temperature entropy terms. -/
theorem foldl_heatStep_snd (Ti : ℚ) :
    ∀ (L : List ℚ) (t e : ℚ),
      (L.foldl (heatStep Ti) (t, e)).2 =
        e + ((List.range L.length).map (entropyTerm Ti t L)).sum := by
  intro L
  induction L with
  | nil => intro t e; simp
  | cons x L ih =>
    intro t e
    rw [List.foldl_cons, heatStep_eq, ih]
    have h0 : entropyTerm Ti t (x :: L) 0 =
        if 0 < t + heatIncr Ti x then entIncr Ti x (t + heatIncr Ti x) else 0 := by
      simp [entropyTerm, runTemp]
    have hsucc : ∀ k, entropyTerm Ti t (x :: L) (k + 1) =
        entropyTerm Ti (t + heatIncr Ti x) L k := by
      intro k
      simp [entropyTerm, runTemp, List.take_succ_cons, List.getD_cons_succ, add_assoc]
    rw [List.length_cons, List.range_succ_eq_map, List.map_cons, List.map_map,
      List.sum_cons, h0]
    rw [show (List.range L.length).map (entropyTerm Ti t (x :: L) ∘ Nat.succ)
        = (List.range L.length).map (entropyTerm Ti (t + heatIncr Ti x) L) from
      List.map_congr_left fun k _ => hsucc k]
    split_ifs <;> ring

/-- Claim C2 (amended): in `compute_heat_transfer` the new entropy of
particle `i` is `entropy[i]` plus one term per visited neighbor, each term
being `((Q_ij / T_run) * dt) / norm_factor` with `T_run` the running
(partially updated) temperature of `i` just after that neighbor's heat has
been added — not the final post-update temperature — and each term is
included only when its own running temperature is positive. -/
theorem compute_heat_transfer_entropy_running : ∀ ps : List UParticleQ,
    (compute_heat_transfer ps).2 = ps.enum.map fun ip =>
      ip.2.entropy + ((List.range (othersTemps ps ip.1).length).map
        (entropyTerm ip.2.temperature ip.2.temperature (othersTemps ps ip.1))).sum := by
  intro ps
  simp only [compute_heat_transfer, heatOne_eq, foldl_heatStep_snd]

/-- Counterexample to claim C2: on the three-particle population `heat3`
(temperatures 0, 1, 1) the source's entropy output differs from the
claimed formula that divides by the final post-update temperature — the
code yields entropy `3/2` for particle 0, the claimed formula yields `1`. -/
theorem compute_heat_transfer_entropy_cex :
    ¬ (compute_heat_transfer heat3).2 = entropySpecFinalTemp heat3 := by
  norm_num [heat3, compute_heat_transfer, entropySpecFinalTemp, heatOne, heatStep,
    othersTemps, heatIncr, entIncr, List.enum, List.enumFrom,
    DELTA_T, HEAT_TRANSFER_COEFF, norm_factor, List.foldl, List.filter]

/-- Helper: a sum over a list splits into the part satisfying `c` and the
part not satisfying it. -/
theorem sum_map_split {α : Type _} (c : α → Prop) [DecidablePred c] (f : α → ℚ) :
    ∀ l : List α,
      (l.map f).sum =
        ((l.filter fun a => c a).map f).sum +
        ((l.filter fun a => ¬ c a).map f).sum := by
  intro l
  induction l with
  | nil => simp
  | cons x l ih =>
    by_cases h : c x <;> simp [List.filter_cons, h, ih] <;> ring

/-- Helper: skipping index `i` does not change particle `i`'s total
increment, since the skipped term is the zero self-exchange
`Q_ii = HEAT_TRANSFER_COEFF * (T_i - T_i)`. -/
theorem othersTemps_incr_sum (ps : List UParticleQ) (i : ℕ) (p : UParticleQ)
    (hip : (i, p) ∈ ps.enum) :
    ((othersTemps ps i).map (heatIncr p.temperature)).sum =
      (ps.map fun q => heatIncr p.temperature q.temperature).sum := by
  unfold othersTemps
  rw [List.map_map]
  simp only [Function.comp_def]
  have hsplit := sum_map_split (fun q : ℕ × UParticleQ => q.1 = i)
    (fun q => heatIncr p.temperature q.2.temperature) ps.enum
  have hzero : ((ps.enum.filter fun q : ℕ × UParticleQ => q.1 = i).map
      fun q => heatIncr p.temperature q.2.temperature).sum = 0 := by
    apply List.sum_eq_zero
    intro x hx
    obtain ⟨q, hq, rfl⟩ := List.mem_map.mp hx
    obtain ⟨hqmem, hqdec⟩ := List.mem_filter.mp hq
    have hq1 : q.1 = i := by simpa using hqdec
    have h1 : ps[q.1]? = some q.2 := List.mem_enum_iff_getElem?.mp hqmem
    have h2 : ps[i]? = some p := List.mk_mem_enum_iff_getElem?.mp hip
    rw [hq1, h2] at h1
    have hq2 : q.2 = p := by
      have := Option.some.inj h1
      exact this.symm
    rw [hq2]
    simp [heatIncr]
  have htot : (ps.enum.map fun q : ℕ × UParticleQ =>
      heatIncr p.temperature q.2.temperature).sum =
      (ps.map fun q => heatIncr p.temperature q.temperature).sum := by
    rw [show (fun q : ℕ × UParticleQ => heatIncr p.temperature q.2.temperature)
        = (fun q : UParticleQ => heatIncr p.temperature q.temperature) ∘ Prod.snd
        from rfl, ← List.map_map, List.enum_map_snd]
  rw [htot] at hsplit
  rw [hzero] at hsplit
  linarith

/-- Helper: summing an affine image of a list. -/
theorem sum_map_sub_mul : ∀ (l : List ℚ) (T c : ℚ),
    (l.map fun x => (x - T) * c).sum = (l.sum - (l.length : ℚ) * T) * c := by
  intro l
  induction l with
  | nil => intro T c; simp
  | cons x l ih =>
    intro T c
    simp only [List.map_cons, List.sum_cons, List.length_cons, ih]
    push_cast
    ring

/-- Helper: summing `T ↦ T + (S - n*T)*c` over a list. -/
theorem sum_map_affine : ∀ (l : List ℚ) (S c n : ℚ),
    (l.map fun T => T + (S - n * T) * c).sum
      = l.sum + ((l.length : ℚ) * S - n * l.sum) * c := by
  intro l
  induction l with
  | nil => intro S c n; simp
  | cons x l ih =>
    intro S c n
    simp only [List.map_cons, List.sum_cons, List.length_cons, ih]
    push_cast
    ring

/-- Claim C10: the diffusion update conserves total temperature — every
pairwise exchange is antisymmetric and every ordered pair is accumulated
exactly once from the prior-step snapshot, so in exact arithmetic the new
temperatures sum to the old ones. -/
theorem compute_heat_transfer_conserves_temperature : ∀ ps : List UParticleQ,
    (compute_heat_transfer ps).1.sum = (ps.map fun p => p.temperature).sum := by
  intro ps
  have h1 : (compute_heat_transfer ps).1
      = ps.enum.map fun ip => ip.2.temperature +
          (ps.map fun q => heatIncr ip.2.temperature q.temperature).sum := by
    simp only [compute_heat_transfer]
    refine List.map_congr_left fun ip hip => ?_
    rw [heatOne_eq, foldl_heatStep_fst, othersTemps_incr_sum ps ip.1 ip.2 hip]
  rw [h1]
  rw [show (fun ip : ℕ × UParticleQ => ip.2.temperature +
        (ps.map fun q => heatIncr ip.2.temperature q.temperature).sum)
      = (fun p : UParticleQ => p.temperature +
        (ps.map fun q => heatIncr p.temperature q.temperature).sum) ∘ Prod.snd
      from rfl, ← List.map_map, List.enum_map_snd]
  have h2 : ∀ T : ℚ, (ps.map fun q => heatIncr T q.temperature).sum
      = ((ps.map fun q => q.temperature).sum - (ps.length : ℚ) * T) *
          (HEAT_TRANSFER_COEFF * DELTA_T / norm_factor) := by
    intro T
    rw [show (fun q : UParticleQ => heatIncr T q.temperature)
        = (fun x : ℚ => (x - T) * (HEAT_TRANSFER_COEFF * DELTA_T / norm_factor)) ∘
          (fun q : UParticleQ => q.temperature)
        from funext fun q => by simp only [Function.comp, heatIncr]; ring,
      ← List.map_map, sum_map_sub_mul, List.length_map]
  simp only [h2]
  rw [show (fun p : UParticleQ => p.temperature +
        ((ps.map fun q => q.temperature).sum - (ps.length : ℚ) * p.temperature) *
          (HEAT_TRANSFER_COEFF * DELTA_T / norm_factor))
      = (fun T : ℚ => T + ((ps.map fun q => q.temperature).sum - (ps.length : ℚ) * T) *
          (HEAT_TRANSFER_COEFF * DELTA_T / norm_factor)) ∘
        (fun q : UParticleQ => q.temperature)
      from rfl, ← List.map_map, sum_map_affine, List.length_map]
  ring

end UnifiedSimQ


namespace UnifiedSimQ

/-- Helper: `syncGroup` is a map, and the mapped function changes only the
`quantum_state` of members of `g`, never `entanglement_id`. -/
theorem gMembers_syncGroup (g h : ℤ) (ps : List UParticleQ) :
    gMembers (syncGroup g ps) h =
      (gMembers ps h).map fun p =>
        if p.entanglement_id = some g then { p with quantum_state := gMean ps g }
        else p := by
  unfold gMembers syncGroup
  rw [List.filter_map]
  congr 1
  apply List.filter_congr
  intro p _
  simp only [Function.comp_apply]
  split_ifs <;> rfl

/-- Helper: syncing group `g` does not change the mean of a different group
`h`. -/
theorem gMean_syncGroup_ne (g h : ℤ) (hne : ¬ h = g) (ps : List UParticleQ) :
    gMean (syncGroup g ps) h = gMean ps h := by
  unfold gMean
  rw [gMembers_syncGroup, List.length_map, List.map_map]
  have hvals : (gMembers ps h).map
      ((fun p => p.quantum_state) ∘ fun p =>
        if p.entanglement_id = some g then { p with quantum_state := gMean ps g }
        else p)
      = (gMembers ps h).map fun p => p.quantum_state := by
    apply List.map_congr_left
    intro p hp
    have hpe : p.entanglement_id = some h := by
      have := List.mem_filter.mp hp
      simpa using this.2
    simp [Function.comp_apply, hpe, hne]
  rw [hvals]

/-- Helper: a fold of `syncGroup` over a duplicate-free id list sets every
particle whose id occurs in the list to its group's mean over the original
population, and leaves every other particle unchanged. -/
theorem applySync_char : ∀ L : List ℤ, L.Nodup → ∀ ps : List UParticleQ,
    L.foldl (fun acc g => syncGroup g acc) ps =
      ps.map fun p =>
        match p.entanglement_id with
        | none => p
        | some g => if g ∈ L then { p with quantum_state := gMean ps g } else p := by
  intro L
  induction L with
  | nil =>
    intro _ ps
    rw [List.foldl_nil]
    rw [show (fun p : UParticleQ =>
        match p.entanglement_id with
        | none => p
        | some g => if g ∈ ([] : List ℤ) then { p with quantum_state := gMean ps g }
          else p) = id from funext fun p => by
      cases p.entanglement_id <;> simp]
    rw [List.map_id]
  | cons g L ih =>
    intro hnd ps
    obtain ⟨hg, hL⟩ := List.nodup_cons.mp hnd
    rw [List.foldl_cons, ih hL]
    have hmean : ∀ q : UParticleQ,
        (match q.entanglement_id with
          | none => q
          | some k => if k ∈ L then
              { q with quantum_state := gMean (syncGroup g ps) k } else q)
        = (match q.entanglement_id with
          | none => q
          | some k => if k ∈ L then { q with quantum_state := gMean ps k } else q) := by
      intro q
      cases hq : q.entanglement_id with
      | none => rfl
      | some k =>
        by_cases hk : k ∈ L
        · have hkg : ¬ k = g := fun h => hg (h ▸ hk)
          simp [hk, gMean_syncGroup_ne g k hkg ps]
        · simp [hk]
    rw [List.map_congr_left fun q _ => hmean q]
    unfold syncGroup
    rw [List.map_map]
    apply List.map_congr_left
    intro p _
    simp only [Function.comp_apply]
    cases hp : p.entanglement_id with
    | none => simp [hp]
    | some k =>
      by_cases hkg : k = g
      · subst hkg
        simp [hp, hg]
      · simp [hp, hkg, List.mem_cons]

/-- Helper: the GroupSynchronizer's characterization — every grouped
particle's designated field becomes its group's mean over the original
population, ungrouped particles are untouched, all other fields kept. -/
theorem sync_char (ps : List UParticleQ) :
    update_quantum_states ps = ps.map (syncedParticle ps) := by
  unfold update_quantum_states
  rw [applySync_char (uniqueIds ps) (List.nodup_dedup _) ps]
  apply List.map_congr_left
  intro p hp
  unfold syncedParticle
  cases hpe : p.entanglement_id with
  | none => rfl
  | some g =>
    have hgmem : g ∈ uniqueIds ps := by
      unfold uniqueIds
      rw [List.mem_dedup]
      exact List.mem_filterMap.mpr ⟨p, hp, hpe⟩
    simp [hgmem]

/-- Claim C6: the GroupSynchronizer partitions particles by group id and
overwrites every member's designated scalar field with the partition's
arithmetic mean, leaving ungrouped particles untouched; concretely, two
particles sharing a group with field values 100 and 300 both read 200 after
synchronization. -/
theorem update_quantum_states_group_mean : ∀ ps : List UParticleQ,
    update_quantum_states ps = ps.map (syncedParticle ps) ∧
    update_quantum_states
        [⟨0, 0, 0, 100, some 1⟩, ⟨0, 0, 0, 300, some 1⟩] =
        [⟨0, 0, 0, 200, some 1⟩, ⟨0, 0, 0, 200, some 1⟩] := by
  intro ps
  refine ⟨sync_char ps, ?_⟩
  rw [sync_char]
  norm_num [syncedParticle, gMean, gMembers, List.filter]

/-- Helper: `syncedParticle` keeps the group id. -/
theorem syncedParticle_eid (ps : List UParticleQ) (p : UParticleQ) :
    (syncedParticle ps p).entanglement_id = p.entanglement_id := by
  unfold syncedParticle
  cases hpe : p.entanglement_id <;> simp [hpe]

/-- Helper: summing a constant over a list. -/
theorem sum_map_const_q {α : Type _} (l : List α) (c : ℚ) :
    (l.map fun _ => c).sum = (l.length : ℚ) * c := by
  induction l with
  | nil => simp
  | cons x l ih =>
    simp only [List.map_cons, List.sum_cons, List.length_cons, ih]
    push_cast
    ring

/-- Helper: after one synchronization pass, a non-empty group's mean is
unchanged (all members carry the old mean, and the mean of a constant list
is that constant). -/
theorem gMean_synced (ps : List UParticleQ) (g : ℤ) (hne : gMembers ps g ≠ []) :
    gMean (ps.map (syncedParticle ps)) g = gMean ps g := by
  have hmem : gMembers (ps.map (syncedParticle ps)) g
      = (gMembers ps g).map (syncedParticle ps) := by
    unfold gMembers
    rw [List.filter_map]
    congr 1
    apply List.filter_congr
    intro p _
    simp [Function.comp_apply, syncedParticle_eid]
  have hvals : (gMembers ps g).map ((fun p => p.quantum_state) ∘ syncedParticle ps)
      = (gMembers ps g).map fun _ => gMean ps g := by
    apply List.map_congr_left
    intro p hp
    have hpe : p.entanglement_id = some g := by
      have := List.mem_filter.mp hp
      simpa using this.2
    simp [Function.comp_apply, syncedParticle, hpe]
  have hlen : ((gMembers ps g).length : ℚ) ≠ 0 :=
    Nat.cast_ne_zero.mpr (Nat.pos_iff_ne_zero.mp (List.length_pos.mpr hne))
  have hval : gMean (ps.map (syncedParticle ps)) g
      = ((gMembers ps g).length : ℚ) * gMean ps g / ((gMembers ps g).length : ℚ) := by
    show ((gMembers (ps.map (syncedParticle ps)) g).map fun p => p.quantum_state).sum
        / ((gMembers (ps.map (syncedParticle ps)) g).length : ℚ) = _
    rw [hmem, List.map_map, List.length_map, hvals, sum_map_const_q]
  rw [hval, mul_div_cancel_left₀ _ hlen]

/-- Claim C7: the GroupSynchronizer is idempotent — a second application
with no other phase in between changes nothing. -/
theorem update_quantum_states_idempotent : ∀ ps : List UParticleQ,
    update_quantum_states (update_quantum_states ps) = update_quantum_states ps := by
  intro ps
  rw [sync_char ps, sync_char (ps.map (syncedParticle ps))]
  have hfix : ∀ q ∈ ps.map (syncedParticle ps),
      syncedParticle (ps.map (syncedParticle ps)) q = q := by
    intro q hq
    obtain ⟨p, hp, rfl⟩ := List.mem_map.mp hq
    cases hpe : p.entanglement_id with
    | none => simp [syncedParticle, hpe]
    | some g =>
      have hmem0 : p ∈ gMembers ps g :=
        List.mem_filter.mpr ⟨hp, by simp [hpe]⟩
      have hne : gMembers ps g ≠ [] := List.ne_nil_of_mem hmem0
      have hσ : syncedParticle ps p = { p with quantum_state := gMean ps g } := by
        simp [syncedParticle, hpe]
      rw [hσ]
      have hstep : syncedParticle (ps.map (syncedParticle ps))
          { p with quantum_state := gMean ps g }
          = { p with quantum_state := gMean (ps.map (syncedParticle ps)) g } := by
        simp [syncedParticle, hpe]
      rw [hstep, gMean_synced ps g hne]
  rw [List.map_congr_left hfix]
  simp

end UnifiedSimQ

namespace Evolution

/-- Helper: when no node passes the creation test, no offspring is built. -/
theorem offspringList_nil (noise : ℕ → ℚ × ℚ × ℚ) (s : List Node)
    (h : s.any (fun n => CREATION_THRESHOLD < harmony n) = false) :
    offspringList noise s = [] := by
  unfold offspringList
  rw [List.filter_eq_nil_iff.mpr fun n hn => by
    simpa using List.any_eq_false.mp h n hn]
  rfl

/-- Claim C8: in a PopulationManager pass each node whose harmony exceeds
the creation threshold spawns exactly one offspring (a perturbed copy with
opposite polarity and decayed resonance/truth) appended to the store; the
creation mask is evaluated on the pre-removal field, the additions are
applied first, and the removal test is then evaluated over the extended
population, compacting the arrays. -/
theorem popStep_creation_removal : ∀ (noise : ℕ → ℚ × ℚ × ℚ) (s : List Node),
    popStep noise s =
      (s ++ offspringList noise s).filter (fun n => ¬ harmony n < CONFLICT_THRESHOLD) ∧
    (offspringList noise s).length =
      s.countP (fun n => CREATION_THRESHOLD < harmony n) ∧
    (offspringList noise s).map (fun n => (n.resonance, n.polarity, n.truth, n.alignment)) =
      (s.filter fun n => CREATION_THRESHOLD < harmony n).map
        (fun n => (n.resonance * (95 / 100), n.polarity * (-1),
          n.truth * (98 / 100), n.alignment)) := by
  intro noise s
  refine ⟨?_, ?_, ?_⟩
  · unfold popStep
    cases hc : s.any (fun n => CREATION_THRESHOLD < harmony n) with
    | true =>
      simp only [hc, if_true]
      cases hk : (s ++ offspringList noise s).any
          (fun n => harmony n < CONFLICT_THRESHOLD) with
      | true => simp [hk]
      | false =>
        simp only [hk, Bool.false_eq_true, if_false]
        exact (List.filter_eq_self.mpr fun n hn => by
          simpa using List.any_eq_false.mp hk n hn).symm
    | false =>
      have hoff : offspringList noise s = [] := offspringList_nil noise s hc
      simp only [hc, Bool.false_eq_true, if_false, hoff, List.append_nil]
      cases hk : s.any (fun n => harmony n < CONFLICT_THRESHOLD) with
      | true => simp [hk]
      | false =>
        simp only [hk, Bool.false_eq_true, if_false]
        exact (List.filter_eq_self.mpr fun n hn => by
          simpa using List.any_eq_false.mp hk n hn).symm
  · unfold offspringList
    rw [List.length_map, List.enum_length, List.countP_eq_length_filter]
  · unfold offspringList
    rw [List.map_map]
    rw [show ((fun n : Node => (n.resonance, n.polarity, n.truth, n.alignment)) ∘
        fun kn : ℕ × Node => offspringOf kn.2 (noise kn.1))
        = ((fun n : Node => (n.resonance * (95 / 100), n.polarity * (-1),
            n.truth * (98 / 100), n.alignment)) ∘ Prod.snd) from funext fun kn => rfl]
    rw [← List.map_map, List.enum_map_snd]

end Evolution
